import Mathlib

/-!
Verification of the PrizePicks EV optimizer core (src/optimizer_core.py).

The Python module is embedded shallowly: American odds are integers,
IEEE float arithmetic is idealized as exact rational arithmetic (ℚ),
pandas dataframes become Lean lists of row structures, and the two
dataframe entry points are additionally modeled over an explicit store
of tables so that statements about in-place mutation of the caller
table can be made.
-/

namespace PPOpt

/-- Embeds POWER_MULT (optimizer_core.py line 9).  The source is a dict
with keys 2..6 (37.5 = 75/2); a lookup at any other key raises KeyError
in Python and no caller performs one, so outside the keys this function
returns the junk value 0, which no theorem relies on. -/
def POWER_MULT : ℕ → ℚ
  | 2 => 3
  | 3 => 6
  | 4 => 10
  | 5 => 20
  | 6 => 75 / 2
  | _ => 0

/-- Embeds FLEX_TABLE (optimizer_core.py lines 10-15).  Each entry of
the per-n dict maps a tuple of hit counts to a multiplier
(1.5 = 3/2, 0.4 = 2/5).  Keys are 3..6; other keys raise KeyError in
Python and are never looked up, so the function returns [] there. -/
def FLEX_TABLE : ℕ → List (List ℕ × ℚ)
  | 3 => [([3], 3), ([2], 1)]
  | 4 => [([4], 6), ([3], 3 / 2)]
  | 5 => [([5], 10), ([4], 2), ([3], 2 / 5)]
  | 6 => [([6], 25), ([5], 2), ([4], 2 / 5)]
  | _ => []

/-- Embeds amer_to_imp_prob (optimizer_core.py lines 17-21): for
odds > 0 the value is 100/(odds+100), otherwise (-odds)/((-odds)+100).
The source has no guard for the invalid American range (-100, 100);
this embedding mirrors that by being total. -/
def amer_to_imp_prob (odds : ℤ) : ℚ :=
  if 0 < odds then 100 / ((odds : ℚ) + 100)
  else (-(odds : ℚ)) / ((-(odds : ℚ)) + 100)

/-- Embeds devig_two_way (optimizer_core.py lines 23-27). -/
def devig_two_way (imp_over imp_under : ℚ) : ℚ × ℚ :=
  let s := imp_over + imp_under
  if s ≤ 0 then (1 / 2, 1 / 2)
  else (imp_over / s, imp_under / s)

/-- Embeds ev_power (optimizer_core.py lines 29-33): p_win starts at 1
and is multiplied by each probability in order, which is a left fold. -/
def ev_power (ps : List ℚ) (n : ℕ) : ℚ :=
  POWER_MULT n * ps.foldl (· * ·) 1 - 1

/-- Embeds one iteration of the dp update loop of ev_flex
(optimizer_core.py lines 40-48).  The array dp has indices 0..nlegs;
positions outside that range are represented as 0.  Position j of the
new array nxt receives dp[j]*(1-p) from the stay branch unless the
source skipped index j because dp[j] == 0, and receives dp[j-1]*p from
the advance branch (whose guard k+1 <= nlegs is exactly j <= nlegs)
unless j = 0 or the source skipped index j-1 because dp[j-1] == 0.
Skipped contributions are written as literal zero guards so the
embedding matches the source; in exact arithmetic they equal the
unguarded products. -/
def flexNext (nlegs : ℕ) (dp : ℕ → ℚ) (p : ℚ) : ℕ → ℚ :=
  fun j =>
    if j ≤ nlegs then
      (if dp j = 0 then 0 else dp j * (1 - p)) +
      (if j = 0 then 0 else if dp (j - 1) = 0 then 0 else dp (j - 1) * p)
    else 0

/-- Embeds the dp initialization of ev_flex (optimizer_core.py lines
38-39): dp = [0.0] * (nlegs + 1); dp[0] = 1.0. -/
def flexInit : ℕ → ℚ :=
  fun j => if j = 0 then 1 else 0

/-- The dp array of ev_flex after processing every leg
(optimizer_core.py lines 40-48). -/
def flexDp (ps : List ℚ) : ℕ → ℚ :=
  ps.foldl (flexNext ps.length) flexInit

/-- Embeds ev_flex (optimizer_core.py lines 35-53): for every bucket of
the flex table, add (sum of dp over the tuple of hit counts) times the
multiplier, then subtract 1. -/
def ev_flex (ps : List ℚ) (n : ℕ) : ℚ :=
  let table := FLEX_TABLE n
  let dp := flexDp ps
  (table.map (fun om => ((om.1.map dp).sum) * om.2)).sum - 1

/-- A row of the probability-augmented table consumed by best_lineups:
the p_over column, the edge_vs_BE_power3 column (called edge3 here),
and the game column used for same-game suppression.  best_lineups reads
only these three columns of its input dataframe. -/
structure AugRow where
  p_over : ℚ
  edge3 : ℚ
  game : String

/-- Positional row access df2.iloc[i].  The source never indexes out of
range; out-of-range access returns a dummy row here. -/
def dfGet (df2 : List AugRow) (i : ℕ) : AugRow :=
  df2.getD i ⟨0, 0, ""⟩

/-- Embeds df.sort_values on the edge_vs_BE_power3 column with
ascending=False (optimizer_core.py line 73).  pandas uses an
unspecified unstable quicksort; this embedding fixes the deterministic
stable insertion sort as the model of that implementation-defined
order. -/
def sortByEdge3Desc (df : List AugRow) : List AugRow :=
  List.insertionSort (fun a b => b.edge3 ≤ a.edge3) df

/-- The game labels of the members of a combination
(optimizer_core.py line 78). -/
def gamesOf (df2 : List AugRow) (c : List ℕ) : List String :=
  c.map (fun i => (dfGet df2 i).game)

/-- Embeds invalid_combo (optimizer_core.py lines 75-80).  The source
checks the columns attribute of df2 for the game column; the hasGame
flag models that column being present.  len(set(games)) is the length
of the deduplicated list. -/
def invalid_combo (allow_same_game hasGame : Bool) (df2 : List AugRow) (c : List ℕ) : Bool :=
  if allow_same_game || !hasGame then false
  else decide ((gamesOf df2 c).dedup.length < (gamesOf df2 c).length)

/-- The probability vector [rows[i].p_over for i in combo]
(optimizer_core.py lines 91 and 101). -/
def comboProbs (df2 : List AugRow) (c : List ℕ) : List ℚ :=
  c.map (fun i => (dfGet df2 i).p_over)

/-- Embeds itertools.combinations over a list of indices: all
subsequences of the given length, emitted in lexicographic order of
member positions, exactly like the Python iterator. -/
def combinations : ℕ → List ℕ → List (List ℕ)
  | 0, _ => [[]]
  | _ + 1, [] => []
  | n + 1, x :: xs => ((combinations n xs).map (fun c => x :: c)) ++ combinations (n + 1) xs

/-- Embeds one iteration of the accumulator update of the search loops
(optimizer_core.py lines 88-94 and 98-104): skip invalid combos, and
replace the incumbent exactly when the new expected value is strictly
greater. -/
def searchStep (f : List ℕ → ℚ) (inv : List ℕ → Bool)
    (acc : ℚ × Option (List ℕ)) (c : List ℕ) : ℚ × Option (List ℕ) :=
  if inv c then acc
  else if acc.1 < f c then (f c, some c) else acc

/-- Embeds one full search loop: best_p starts at -1e9 and best_c at
None (optimizer_core.py lines 87 and 97). -/
def searchBest (f : List ℕ → ℚ) (inv : List ℕ → Bool)
    (cs : List (List ℕ)) : ℚ × Option (List ℕ) :=
  cs.foldl (searchStep f inv) (-1000000000, none)

/-- Embeds the body of best_lineups after df2 is built
(optimizer_core.py lines 82-106).  The source stores results under the
power keys n = 2..6 and the flex keys n = 3..6 of a dict; the two
components here give, for each n, the pair (ev, combo_idxs) that the
loop body computes for that n.  Theorems restrict n to the populated
key ranges. -/
def bestLineupsCore (df2 : List AugRow) (allow_same_game hasGame : Bool) :
    (ℕ → ℚ × Option (List ℕ)) × (ℕ → ℚ × Option (List ℕ)) :=
  (fun n => searchBest (fun c => ev_power (comboProbs df2 c) n)
      (invalid_combo allow_same_game hasGame df2) (combinations n (List.range df2.length)),
    fun n => searchBest (fun c => ev_flex (comboProbs df2 c) n)
      (invalid_combo allow_same_game hasGame df2) (combinations n (List.range df2.length)))

/-- Embeds best_lineups (optimizer_core.py lines 72-106): df2 is the
input sorted by edge_vs_BE_power3 descending, truncated to the first
top_k rows and positionally reindexed; the function returns the result
set together with df2, like the source returns (results, df2). -/
def best_lineups (df : List AugRow) (top_k : ℕ) (allow_same_game hasGame : Bool) :
    ((ℕ → ℚ × Option (List ℕ)) × (ℕ → ℚ × Option (List ℕ))) × List AugRow :=
  let df2 := (sortByEdge3Desc df).take top_k
  (bestLineupsCore df2 allow_same_game hasGame, df2)

/-- Selects the power (true) or flex (false) half of a result set; used
only to state claims uniformly over both payout structures. -/
def resultOf (R : (ℕ → ℚ × Option (List ℕ)) × (ℕ → ℚ × Option (List ℕ)))
    (sel : Bool) : ℕ → ℚ × Option (List ℕ) :=
  if sel then R.1 else R.2

/-- The expected-value function the search uses for the selected
structure: ev_power for power, ev_flex for flex. -/
def evOf (sel : Bool) (ps : List ℚ) (n : ℕ) : ℚ :=
  if sel then ev_power ps n else ev_flex ps n

/-- A concrete three-row augmented pool used by witnesses: equal
probabilities (so every size-2 combination ties on expected value),
equal edge values, pairwise distinct games. -/
def pool3 : List AugRow :=
  [⟨1, 0, "A"⟩, ⟨1, 0, "B"⟩, ⟨1, 0, "C"⟩]

/-- A raw dataframe row for the store model of the two entry points:
the fixed input columns, plus the computed numeric columns added by
assignment, modeled as an association list in which the most recent
binding of a name shadows older ones (column overwrite). -/
structure PRow where
  over_odds : ℤ
  under_odds : ℤ
  game : String
  extra : List (String × ℚ)

/-- Reads a computed numeric column of a row. -/
def getColV (r : PRow) (name : String) : ℚ :=
  (r.extra.lookup name).getD 0

/-- Column assignment on one row: the new binding shadows any older
binding of the same name under lookup. -/
def setRowCol (r : PRow) (name : String) (v : ℚ) : PRow :=
  { r with extra := (name, v) :: r.extra }

/-- Column assignment df[name] = vals on a whole table. -/
def setColTable (t : List PRow) (name : String) (vals : List ℚ) : List PRow :=
  List.zipWith (fun r v => setRowCol r name v) t vals

/-- In-place column assignment on the table at index i of the store.
This is the only mutating dataframe operation the two entry points
perform. -/
def setColStore (s : List (List PRow)) (i : ℕ) (name : String) (vals : List ℚ) :
    List (List PRow) :=
  s.set i (setColTable (s.getD i []) name vals)

/-- The name of the edge column for leg count n. -/
def edgeColName (n : ℕ) : String :=
  "edge_vs_BE_power" ++ toString n

/-- Embeds compute_probabilities (optimizer_core.py lines 59-70) over
an explicit store of tables, so that the claim that the caller table is
never written in place can be stated.  Line 60 df = df.copy() becomes
the allocation of a fresh table at index r1 = s.length holding the same
value; all column assignments then target r1.  The source derives the
edge columns from breakeven_p_power n = (1/POWER_MULT n) ** (1/n)
(lines 55-57), an irrational real number for every n in 2..6 that has
no exact rational embedding, so the breakeven values are taken as a
parameter be; every theorem below holds for every be.  The result is
the new store and the reference to the augmented copy. -/
def compute_probabilities (be : ℕ → ℚ) (s : List (List PRow)) (r : ℕ) :
    List (List PRow) × ℕ :=
  let df := s.getD r []
  let s1 := s ++ [df]
  let r1 := s.length
  let pvals := df.map (fun row =>
    (devig_two_way (amer_to_imp_prob row.over_odds) (amer_to_imp_prob row.under_odds)).1)
  let s2 := setColStore s1 r1 "p_over" pvals
  let s3 := [2, 3, 4, 5, 6].foldl (fun st n =>
    let pcol := (st.getD r1 []).map (fun row => getColV row "p_over")
    setColStore st r1 (edgeColName n) (pcol.map (fun p => p - be n))) s2
  (s3, r1)

/-- Embeds best_lineups (optimizer_core.py lines 72-73) over the store:
df.copy().sort_values(...).head(top_k).reset_index(drop=True) builds a
fresh table df2, appended to the store at index s.length, and the
search then only reads df2.  The search itself is the pure
bestLineupsCore over the relevant columns of df2. -/
def best_lineups_prog (s : List (List PRow)) (r : ℕ) (top_k : ℕ)
    (allow_same_game hasGame : Bool) :
    List (List PRow) ×
      (((ℕ → ℚ × Option (List ℕ)) × (ℕ → ℚ × Option (List ℕ))) × ℕ) :=
  let df := s.getD r []
  let df2 := (List.insertionSort
    (fun a b => getColV b "edge_vs_BE_power3" ≤ getColV a "edge_vs_BE_power3") df).take top_k
  let s1 := s ++ [df2]
  let aug := df2.map (fun row =>
    AugRow.mk (getColV row "p_over") (getColV row "edge_vs_BE_power3") row.game)
  (s1, (bestLineupsCore aug allow_same_game hasGame, s.length))

/- ------------------------------------------------------------------ -/
/- Claim C1: behaviour of amer_to_imp_prob on the invalid odds range.  -/
/- ------------------------------------------------------------------ -/

/-- Claim C1, counterexample.  The claim states that every integer odds
strictly between -100 and 100 (including 0) makes the odds-to-probability
conversion fail with an InvalidOdds condition.  The source has no such
guard: amer_to_imp_prob(0) returns the value 0.0 rather than failing,
as this evaluation of the embedding shows. -/
theorem amer_to_imp_prob_zero_returns_value : amer_to_imp_prob 0 = 0 := by
  norm_num [amer_to_imp_prob]

/-- Claim C1, amended.  For every integer odds strictly between -100
and 100 (including 0), amer_to_imp_prob does not fail: it returns a
well-defined probability value in the interval [0, 1)
(in particular amer_to_imp_prob 0 = 0). -/
theorem amer_to_imp_prob_total_on_invalid_range (odds : ℤ)
    (h1 : -100 < odds) (h2 : odds < 100) :
    0 ≤ amer_to_imp_prob odds ∧ amer_to_imp_prob odds < 1 := by
  unfold amer_to_imp_prob
  by_cases h : 0 < odds
  · rw [if_pos h]
    have ho : (0 : ℚ) < (odds : ℚ) := by exact_mod_cast h
    have hd : (0 : ℚ) < (odds : ℚ) + 100 := by linarith
    constructor
    · positivity
    · rw [div_lt_one hd]
      linarith
  · rw [if_neg h]
    have ho : (0 : ℚ) ≤ -(odds : ℚ) := by
      have : odds ≤ 0 := le_of_not_lt h
      have : (odds : ℚ) ≤ 0 := by exact_mod_cast this
      linarith
    have hd : (0 : ℚ) < -(odds : ℚ) + 100 := by linarith
    constructor
    · positivity
    · rw [div_lt_one hd]
      linarith

/-- Witness for the amended claim C1 at the concrete input odds = 0. -/
theorem amer_to_imp_prob_total_on_invalid_range_witness :
    (-100 < (0 : ℤ) ∧ (0 : ℤ) < 100) ∧
      (0 ≤ amer_to_imp_prob 0 ∧ amer_to_imp_prob 0 < 1) :=
  ⟨⟨by decide, by decide⟩,
    amer_to_imp_prob_total_on_invalid_range 0 (by decide) (by decide)⟩

/- ------------------------------------------------------------------ -/
/- Claim C6: devig_two_way normalization and degenerate fallback.      -/
/- ------------------------------------------------------------------ -/

/-- Claim C6.  For implied probabilities a, b with a + b > 0,
devig_two_way returns (a/(a+b), b/(a+b)), a pair summing exactly to 1,
hence (1/2, 1/2) on equal positive inputs; for a + b ≤ 0 it returns
(1/2, 1/2) instead of dividing by zero. -/
theorem devig_two_way_spec (a b : ℚ) :
    (0 < a + b →
      devig_two_way a b = (a / (a + b), b / (a + b)) ∧
      (devig_two_way a b).1 + (devig_two_way a b).2 = 1) ∧
    (0 < a → devig_two_way a a = (1 / 2, 1 / 2)) ∧
    (a + b ≤ 0 → devig_two_way a b = (1 / 2, 1 / 2)) := by
  refine ⟨?_, ?_, ?_⟩
  · intro h
    have hne : ¬ (a + b ≤ 0) := not_le.mpr h
    constructor
    · simp [devig_two_way, hne]
    · simp only [devig_two_way, hne, if_neg, ite_false]
      rw [div_add_div_same, div_self (ne_of_gt h)]
  · intro ha
    have h : ¬ (a + a ≤ 0) := not_le.mpr (by linarith)
    have h2 : a + a ≠ 0 := by intro hc; rw [hc] at h; exact h le_rfl
    simp only [devig_two_way, h, ite_false]
    have : a / (a + a) = 1 / 2 := by
      rw [div_eq_div_iff h2 (by norm_num : (2 : ℚ) ≠ 0)]
      ring
    rw [this]
  · intro h
    simp [devig_two_way, h]

/-- Witness for claim C6: the normalizing branch at (1, 1) and the
degenerate branch at (0, -1). -/
theorem devig_two_way_spec_witness :
    (0 < (1 : ℚ) + 1 ∧
      devig_two_way 1 1 = ((1 : ℚ) / (1 + 1), (1 : ℚ) / (1 + 1)) ∧
      (devig_two_way 1 1).1 + (devig_two_way 1 1).2 = 1) ∧
    ((0 : ℚ) + (-1) ≤ 0 ∧ devig_two_way 0 (-1) = (1 / 2, 1 / 2)) :=
  ⟨⟨by norm_num, ((devig_two_way_spec 1 1).1 (by norm_num)).1,
      ((devig_two_way_spec 1 1).1 (by norm_num)).2⟩,
    ⟨by norm_num, (devig_two_way_spec 0 (-1)).2.2 (by norm_num)⟩⟩

/- ------------------------------------------------------------------ -/
/- Claim C7: closed form of the ALL_HIT expected value.                -/
/- ------------------------------------------------------------------ -/

/-- Left fold of multiplication starting from an accumulator equals the
accumulator times the list product. -/
theorem foldl_mul_eq_prod (l : List ℚ) : ∀ a : ℚ, l.foldl (· * ·) a = a * l.prod := by
  induction l with
  | nil => intro a; simp
  | cons x xs ih =>
    intro a
    rw [List.foldl_cons, ih (a * x), List.prod_cons]
    ring

/-- Claim C7.  For a probability vector ps of length n with n in 2..6,
ev_power ps n equals the ALL_HIT multiplier for n times the product of
ps, minus 1; it equals POWER_MULT n - 1 when every probability is 1 and
exactly -1 when some probability is 0. -/
theorem ev_power_spec (ps : List ℚ) (n : ℕ)
    (h2 : 2 ≤ n) (h6 : n ≤ 6) (hlen : ps.length = n) :
    ev_power ps n = POWER_MULT n * ps.prod - 1 ∧
    ((∀ p ∈ ps, p = 1) → ev_power ps n = POWER_MULT n - 1) ∧
    ((∃ p ∈ ps, p = 0) → ev_power ps n = -1) := by
  have hfold : ev_power ps n = POWER_MULT n * ps.prod - 1 := by
    unfold ev_power
    rw [foldl_mul_eq_prod ps 1, one_mul]
  refine ⟨hfold, ?_, ?_⟩
  · intro hall
    rw [hfold, List.prod_eq_one hall, mul_one]
  · intro ⟨p, hp, hp0⟩
    have : (0 : ℚ) ∈ ps := hp0 ▸ hp
    rw [hfold, List.prod_eq_zero this, mul_zero]
    norm_num

/-- Witness for claim C7 at ps = [1, 1], n = 2. -/
theorem ev_power_spec_witness :
    (2 ≤ 2 ∧ 2 ≤ 6 ∧ ([(1 : ℚ), 1]).length = 2) ∧
    (ev_power [(1 : ℚ), 1] 2 = POWER_MULT 2 * ([(1 : ℚ), 1]).prod - 1 ∧
      ((∀ p ∈ [(1 : ℚ), 1], p = 1) → ev_power [(1 : ℚ), 1] 2 = POWER_MULT 2 - 1) ∧
      ((∃ p ∈ [(1 : ℚ), 1], p = 0) → ev_power [(1 : ℚ), 1] 2 = -1)) :=
  ⟨⟨by decide, by decide, by decide⟩,
    ev_power_spec [(1 : ℚ), 1] 2 (by decide) (by decide) (by decide)⟩

/- ------------------------------------------------------------------ -/
/- Claim C4: the partial-hit dp distribution sums to 1.                -/
/- ------------------------------------------------------------------ -/

/-- The zero guard of the source dp loop is the identity in exact
arithmetic: a skipped contribution equals the product it would add. -/
theorem ite_zero_mul (a x : ℚ) : (if a = 0 then 0 else a * x) = a * x := by
  by_cases h : a = 0 <;> simp [h]

/-- One dp update step preserves the total mass over indices 0..nlegs,
as long as the top cell dp nlegs is still empty (which holds while at
least one leg remains to be processed). -/
theorem flexNext_sum (nlegs : ℕ) (dp : ℕ → ℚ) (p : ℚ) (htop : dp nlegs = 0) :
    ∑ j ∈ Finset.range (nlegs + 1), flexNext nlegs dp p j
      = ∑ j ∈ Finset.range (nlegs + 1), dp j := by
  have hexp : ∀ j ∈ Finset.range (nlegs + 1),
      flexNext nlegs dp p j
        = dp j * (1 - p) + (if j = 0 then 0 else dp (j - 1) * p) := by
    intro j hj
    have hle : j ≤ nlegs := Nat.lt_succ_iff.mp (Finset.mem_range.mp hj)
    unfold flexNext
    rw [if_pos hle, ite_zero_mul]
    by_cases h0 : j = 0
    · rw [if_pos h0, if_pos h0]
    · rw [if_neg h0, if_neg h0, ite_zero_mul]
  rw [Finset.sum_congr rfl hexp, Finset.sum_add_distrib]
  have h1 : ∑ j ∈ Finset.range (nlegs + 1), dp j * (1 - p)
      = (∑ j ∈ Finset.range (nlegs + 1), dp j) * (1 - p) := by
    rw [Finset.sum_mul]
  have h2 : ∑ j ∈ Finset.range (nlegs + 1), (if j = 0 then 0 else dp (j - 1) * p)
      = (∑ j ∈ Finset.range nlegs, dp j) * p := by
    rw [Finset.sum_range_succ']
    simp only [Nat.succ_ne_zero, ite_false, Nat.add_sub_cancel,
      eq_self_iff_true, if_true, add_zero]
    rw [Finset.sum_mul]
  have h3 : ∑ j ∈ Finset.range (nlegs + 1), dp j
      = ∑ j ∈ Finset.range nlegs, dp j := by
    rw [Finset.sum_range_succ, htop, add_zero]
  rw [h1, h2, h3]
  ring

/-- Folding the dp update over any remaining legs preserves total mass,
provided every cell that could only be reached by processing more legs
than remain is still empty. -/
theorem foldl_flexNext_sum (nlegs : ℕ) :
    ∀ (ps : List ℚ) (dp : ℕ → ℚ),
      (∀ j, nlegs < j + ps.length → dp j = 0) →
      ∑ j ∈ Finset.range (nlegs + 1), (ps.foldl (flexNext nlegs) dp) j
        = ∑ j ∈ Finset.range (nlegs + 1), dp j := by
  intro ps
  induction ps with
  | nil => intro dp _; rfl
  | cons p ps ih =>
    intro dp hz
    have htop : dp nlegs = 0 := by
      apply hz
      simp only [List.length_cons]
      omega
    rw [List.foldl_cons]
    have hz' : ∀ j, nlegs < j + ps.length → flexNext nlegs dp p j = 0 := by
      intro j hj
      unfold flexNext
      by_cases hle : j ≤ nlegs
      · have hdpj : dp j = 0 := by
          apply hz
          simp only [List.length_cons]
          omega
        rw [if_pos hle, if_pos hdpj]
        by_cases h0 : j = 0
        · rw [if_pos h0, add_zero]
        · have hdpj1 : dp (j - 1) = 0 := by
            apply hz
            simp only [List.length_cons]
            omega
          rw [if_neg h0, if_pos hdpj1, add_zero]
      · rw [if_neg hle]
    rw [ih (flexNext nlegs dp p) hz', flexNext_sum nlegs dp p htop]

/-- After processing all legs the dp distribution of ev_flex sums to 1
over its index range 0..nlegs. -/
theorem flexDp_sum (ps : List ℚ) :
    ∑ j ∈ Finset.range (ps.length + 1), flexDp ps j = 1 := by
  unfold flexDp
  rw [foldl_flexNext_sum ps.length ps flexInit ?_]
  · rw [Finset.sum_range_succ']
    simp [flexInit]
  · intro j hj
    have : j ≠ 0 := by omega
    simp [flexInit, this]

/-- Claim C4.  For every vector of probabilities each in [0, 1], the
Poisson-binomial dp distribution computed inside ev_flex sums to 1 over
all k after processing all legs.  (The hypothesis on the entries
matches the claim; the invariant in fact holds for every rational
vector, as flexDp_sum shows.) -/
theorem flex_dp_sums_to_one (ps : List ℚ)
    (hps : ∀ p ∈ ps, 0 ≤ p ∧ p ≤ 1) :
    ∑ j ∈ Finset.range (ps.length + 1), flexDp ps j = 1 :=
  flexDp_sum ps

/-- Witness for claim C4 at the concrete vector [1/2, 1/3]. -/
theorem flex_dp_sums_to_one_witness :
    (∀ p ∈ [(1 : ℚ) / 2, 1 / 3], 0 ≤ p ∧ p ≤ 1) ∧
      ∑ j ∈ Finset.range (([(1 : ℚ) / 2, 1 / 3]).length + 1),
        flexDp [(1 : ℚ) / 2, 1 / 3] j = 1 :=
  ⟨by norm_num, flex_dp_sums_to_one [(1 : ℚ) / 2, 1 / 3] (by norm_num)⟩

/- ------------------------------------------------------------------ -/
/- Claim C8: the 3-leg PARTIAL_HIT scenario in exact arithmetic.       -/
/- ------------------------------------------------------------------ -/

/-- Claim C8.  For probabilities [0.6, 0.6, 0.6] = [3/5, 3/5, 3/5] and
n = 3, the flex table maps exactly-3 hits to 3.0 and exactly-2 hits to
1.0, the dp distribution gives P(3 hits) = 0.216 = 27/125 and
P(2 hits) = 0.432 = 54/125, and the expected value is
0.216*3.0 + 0.432*1.0 - 1 = 0.08 = 2/25, all in exact rationals. -/
theorem ev_flex_three_leg_scenario :
    FLEX_TABLE 3 = [([3], 3), ([2], 1)] ∧
    flexDp [(3 : ℚ) / 5, 3 / 5, 3 / 5] 3 = 27 / 125 ∧
    flexDp [(3 : ℚ) / 5, 3 / 5, 3 / 5] 2 = 54 / 125 ∧
    ev_flex [(3 : ℚ) / 5, 3 / 5, 3 / 5] 3 = 27 / 125 * 3 + 54 / 125 * 1 - 1 ∧
    ev_flex [(3 : ℚ) / 5, 3 / 5, 3 / 5] 3 = 2 / 25 := by
  refine ⟨rfl, ?_, ?_, ?_, ?_⟩ <;>
    norm_num [ev_flex, flexDp, flexNext, flexInit, FLEX_TABLE]

/- ------------------------------------------------------------------ -/
/- Combinatorial facts about the combination enumerator.               -/
/- ------------------------------------------------------------------ -/

/-- Every emitted combination has the requested length and is a
subsequence of the index list. -/
theorem combinations_sound :
    ∀ (l : List ℕ) (n : ℕ) (c : List ℕ),
      c ∈ combinations n l → c.length = n ∧ List.Sublist c l := by
  intro l
  induction l with
  | nil =>
    intro n c hc
    cases n with
    | zero =>
      simp only [combinations, List.mem_singleton] at hc
      subst hc
      exact ⟨rfl, List.Sublist.refl []⟩
    | succ n => simp [combinations] at hc
  | cons x xs ih =>
    intro n c hc
    cases n with
    | zero =>
      simp only [combinations, List.mem_singleton] at hc
      subst hc
      exact ⟨rfl, List.nil_sublist _⟩
    | succ n =>
      simp only [combinations, List.mem_append] at hc
      rcases hc with h | h
      · rcases List.mem_map.mp h with ⟨c', hc', rfl⟩
        obtain ⟨hl, hs⟩ := ih n c' hc'
        exact ⟨by simp [hl], List.Sublist.cons₂ x hs⟩
      · obtain ⟨hl, hs⟩ := ih (n + 1) c h
        exact ⟨hl, hs.cons x⟩

/-- Every subsequence of the index list of the requested length is
emitted. -/
theorem combinations_complete :
    ∀ (l c : List ℕ), List.Sublist c l → ∀ n, c.length = n → c ∈ combinations n l := by
  intro l
  induction l with
  | nil =>
    intro c h n hn
    rw [List.sublist_nil.mp h] at hn ⊢
    rw [← hn]
    simp [combinations]
  | cons x xs ih =>
    intro c h n hn
    cases h with
    | cons _ h' =>
      cases n with
      | zero =>
        rw [List.length_eq_zero.mp hn]
        simp [combinations]
      | succ n =>
        simp only [combinations, List.mem_append]
        exact Or.inr (ih c h' (n + 1) hn)
    | cons₂ _ h' =>
      cases n with
      | zero => simp at hn
      | succ n =>
        simp only [combinations, List.mem_append]
        refine Or.inl (List.mem_map.mpr ⟨_, ih _ h' n (by simpa using hn), rfl⟩)

/-- For a strictly increasing index list, the emitted combinations are
pairwise in strictly increasing lexicographic order: the enumeration
order of itertools.combinations. -/
theorem combinations_pairwise_lex :
    ∀ (l : List ℕ) (n : ℕ), l.Pairwise (· < ·) →
      (combinations n l).Pairwise (List.Lex (· < ·)) := by
  intro l
  induction l with
  | nil =>
    intro n _
    cases n with
    | zero => simp [combinations]
    | succ n => simp [combinations]
  | cons x xs ih =>
    intro n hp
    have hx : ∀ y ∈ xs, x < y := (List.pairwise_cons.mp hp).1
    have hxs : xs.Pairwise (· < ·) := (List.pairwise_cons.mp hp).2
    cases n with
    | zero => simp [combinations]
    | succ n =>
      simp only [combinations]
      refine List.pairwise_append.mpr ⟨?_, ih (n + 1) hxs, ?_⟩
      · exact (ih n hxs).map _ (fun a b hab => List.Lex.cons hab)
      · intro a ha b hb
        rcases List.mem_map.mp ha with ⟨a', _, rfl⟩
        obtain ⟨hbl, hbs⟩ := combinations_sound xs (n + 1) b hb
        cases b with
        | nil => simp at hbl
        | cons y b' =>
          have hy : y ∈ xs := hbs.subset (List.mem_cons_self y b')
          exact List.Lex.rel (hx y hy)

/-- There is no combination of a size exceeding the pool. -/
theorem combinations_eq_nil :
    ∀ (l : List ℕ) (n : ℕ), l.length < n → combinations n l = [] := by
  intro l
  induction l with
  | nil =>
    intro n hn
    cases n with
    | zero => simp at hn
    | succ n => rfl
  | cons x xs ih =>
    intro n hn
    cases n with
    | zero => simp at hn
    | succ n =>
      have h1 : xs.length < n := by
        simp only [List.length_cons] at hn
        omega
      have h2 : xs.length < n + 1 := by omega
      simp only [combinations, ih n h1, ih (n + 1) h2, List.map_nil,
        List.nil_append]

/-- A strictly sorted list of indices below m is a subsequence of
range m: the bridge between the set view of a combination (sorted
member-index tuple) and the enumerator. -/
theorem sorted_bounded_sublist_range :
    ∀ (m : ℕ) (c : List ℕ), c.Sorted (· < ·) → (∀ i ∈ c, i < m) →
      List.Sublist c (List.range m) := by
  intro m
  induction m with
  | zero =>
    intro c _ hb
    cases c with
    | nil => simp
    | cons a t => exact absurd (hb a (List.mem_cons_self a t)) (Nat.not_lt_zero a)
  | succ m ih =>
    intro c hs hb
    rcases List.eq_nil_or_concat c with rfl | ⟨L, b, rfl⟩
    · exact List.nil_sublist _
    · rw [List.concat_eq_append] at hs hb ⊢
      have hparts := List.pairwise_append.mp hs
      have hsL : L.Sorted (· < ·) := hparts.1
      have hLb : ∀ x ∈ L, x < b := by
        intro x hx
        exact hparts.2.2 x hx b (List.mem_singleton_self b)
      by_cases hbm : b = m
      · subst hbm
        have h1 : List.Sublist L (List.range b) := ih L hsL hLb
        rw [List.range_succ]
        exact List.Sublist.append h1 (List.Sublist.refl [b])
      · have hbm' : b < m := by
          have := hb b (by simp)
          omega
        have hall : ∀ x ∈ L ++ [b], x < m := by
          intro x hx
          rcases List.mem_append.mp hx with hx | hx
          · exact lt_trans (hLb x hx) hbm'
          · rw [List.mem_singleton.mp hx]
            exact hbm'
        have h1 : List.Sublist (L ++ [b]) (List.range m) := ih (L ++ [b]) hs hall
        rw [List.range_succ]
        exact h1.trans (List.sublist_append_left _ _)

/-- Positional access at an in-range index yields a member of the
pool. -/
theorem dfGet_mem (df2 : List AugRow) :
    ∀ (i : ℕ), i < df2.length → dfGet df2 i ∈ df2 := by
  unfold dfGet
  induction df2 with
  | nil => intro i h; simp at h
  | cons a t ih =>
    intro i h
    cases i with
    | zero => simp
    | succ i =>
      simp only [List.getD_cons_succ]
      exact List.mem_cons_of_mem a (ih i (Nat.lt_of_succ_lt_succ h))

/- ------------------------------------------------------------------ -/
/- The search fold: first strict maximizer wins.                       -/
/- ------------------------------------------------------------------ -/

/-- Case analysis of the search loop from any accumulator.  Either no
combination updates the accumulator (all invalid or not strictly above
the incumbent value), or the final incumbent is a valid combination c
with value strictly above every valid combination before it and at
least every valid combination after it. -/
theorem searchFold_cases (f : List ℕ → ℚ) (inv : List ℕ → Bool) :
    ∀ (L : List (List ℕ)) (bp : ℚ) (co : Option (List ℕ)),
      (L.foldl (searchStep f inv) (bp, co) = (bp, co) ∧
        ∀ e ∈ L, inv e = true ∨ f e ≤ bp) ∨
      (∃ c pre post, L = pre ++ c :: post ∧ inv c = false ∧
        L.foldl (searchStep f inv) (bp, co) = (f c, some c) ∧ bp < f c ∧
        (∀ e ∈ pre, inv e = true ∨ f e < f c) ∧
        (∀ e ∈ post, inv e = true ∨ f e ≤ f c)) := by
  intro L
  induction L with
  | nil =>
    intro bp co
    left
    exact ⟨rfl, by simp⟩
  | cons e L ih =>
    intro bp co
    by_cases he : inv e = true
    · have hstep : searchStep f inv (bp, co) e = (bp, co) := by
        simp [searchStep, he]
      rcases ih bp co with ⟨heq, hall⟩ | ⟨c, pre, post, hsplit, hc, heq, hbp, hpre, hpost⟩
      · left
        refine ⟨by rw [List.foldl_cons, hstep]; exact heq, ?_⟩
        intro z hz
        rcases List.mem_cons.mp hz with rfl | hz'
        · exact Or.inl he
        · exact hall z hz'
      · right
        refine ⟨c, e :: pre, post, by rw [hsplit, List.cons_append], hc,
          by rw [List.foldl_cons, hstep]; exact heq, hbp, ?_, hpost⟩
        intro z hz
        rcases List.mem_cons.mp hz with rfl | hz'
        · exact Or.inl he
        · exact hpre z hz'
    · have he' : inv e = false := by
        simpa using he
      by_cases hgt : bp < f e
      · have hstep : searchStep f inv (bp, co) e = (f e, some e) := by
          simp [searchStep, he', hgt]
        rcases ih (f e) (some e) with ⟨heq, hall⟩ | ⟨c, pre, post, hsplit, hc, heq, hbp, hpre, hpost⟩
        · right
          exact ⟨e, [], L, rfl, he',
            by rw [List.foldl_cons, hstep]; exact heq, hgt, by simp, hall⟩
        · right
          refine ⟨c, e :: pre, post, by rw [hsplit, List.cons_append], hc,
            by rw [List.foldl_cons, hstep]; exact heq, lt_trans hgt hbp, ?_, hpost⟩
          intro z hz
          rcases List.mem_cons.mp hz with rfl | hz'
          · exact Or.inr hbp
          · exact hpre z hz'
      · have hle : f e ≤ bp := not_lt.mp hgt
        have hstep : searchStep f inv (bp, co) e = (bp, co) := by
          simp [searchStep, he', hgt]
        rcases ih bp co with ⟨heq, hall⟩ | ⟨c, pre, post, hsplit, hc, heq, hbp, hpre, hpost⟩
        · left
          refine ⟨by rw [List.foldl_cons, hstep]; exact heq, ?_⟩
          intro z hz
          rcases List.mem_cons.mp hz with rfl | hz'
          · exact Or.inr hle
          · exact hall z hz'
        · right
          refine ⟨c, e :: pre, post, by rw [hsplit, List.cons_append], hc,
            by rw [List.foldl_cons, hstep]; exact heq, hbp, ?_, hpost⟩
          intro z hz
          rcases List.mem_cons.mp hz with rfl | hz'
          · exact Or.inr (lt_of_le_of_lt hle hbp)
          · exact hpre z hz'

/-- Full specification of one search loop over the combinations of
range m when it returns a combination: the winner is valid, its value
is the reported maximum, it dominates every admissible combination of
the same size, and on exact ties it is lexicographically least. -/
theorem searchBest_some_spec (f : List ℕ → ℚ) (inv : List ℕ → Bool)
    (m n : ℕ) (c : List ℕ)
    (h : (searchBest f inv (combinations n (List.range m))).2 = some c) :
    c.length = n ∧ List.Sublist c (List.range m) ∧ inv c = false ∧
    (searchBest f inv (combinations n (List.range m))).1 = f c ∧
    ∀ c', List.Sublist c' (List.range m) → c'.length = n → inv c' = false →
      f c' ≤ f c ∧ (f c' = f c → c = c' ∨ List.Lex (· < ·) c c') := by
  unfold searchBest at h ⊢
  rcases searchFold_cases f inv (combinations n (List.range m)) (-1000000000) none with
    ⟨heq, _⟩ | ⟨c₀, pre, post, hsplit, hc₀, heq, _, hpre, hpost⟩
  · rw [heq] at h
    simp at h
  · rw [heq] at h ⊢
    have hcc : c = c₀ := by
      simpa using h.symm
    subst hcc
    have hmem : c ∈ combinations n (List.range m) := by
      rw [hsplit]
      exact List.mem_append_right _ (List.mem_cons_self c post)
    obtain ⟨hlen, hsub⟩ := combinations_sound (List.range m) n c hmem
    refine ⟨hlen, hsub, hc₀, rfl, ?_⟩
    intro c' hsub' hlen' hinv'
    have hmem' : c' ∈ combinations n (List.range m) :=
      combinations_complete (List.range m) c' hsub' n hlen'
    rw [hsplit] at hmem'
    rcases List.mem_append.mp hmem' with hin | hin
    · rcases hpre c' hin with hbad | hlt
      · rw [hinv'] at hbad
        simp at hbad
      · exact ⟨le_of_lt hlt, fun heq' => absurd heq' (ne_of_lt hlt)⟩
    · rcases List.mem_cons.mp hin with rfl | hin'
      · exact ⟨le_rfl, fun _ => Or.inl rfl⟩
      · have hle : f c' ≤ f c := by
          rcases hpost c' hin' with hbad | hle
          · rw [hinv'] at hbad
            simp at hbad
          · exact hle
        refine ⟨hle, fun _ => Or.inr ?_⟩
        have hP : (combinations n (List.range m)).Pairwise (List.Lex (· < ·)) :=
          combinations_pairwise_lex (List.range m) n (List.pairwise_lt_range m)
        rw [hsplit] at hP
        have := (List.pairwise_append.mp hP).2.1
        exact (List.pairwise_cons.mp this).1 c' hin'

/-- A combination that passes the enabled exclusion filter has pairwise
distinct game labels. -/
theorem nodup_of_invalid_combo_false (df2 : List AugRow) (c : List ℕ)
    (h : invalid_combo false true df2 c = false) : (gamesOf df2 c).Nodup := by
  have hge : ¬ ((gamesOf df2 c).dedup.length < (gamesOf df2 c).length) := by
    intro hlt
    have htrue : invalid_combo false true df2 c = true := by
      unfold invalid_combo
      simp [hlt]
    rw [h] at htrue
    exact Bool.false_ne_true htrue
  have hle : (gamesOf df2 c).dedup.length ≤ (gamesOf df2 c).length :=
    (List.dedup_sublist _).length_le
  have heq : (gamesOf df2 c).dedup = gamesOf df2 c :=
    (List.dedup_sublist _).eq_of_length (le_antisymm hle (not_lt.mp hge))
  exact List.dedup_eq_self.mp heq

/- ------------------------------------------------------------------ -/
/- Claim C2: the tie-break is lexicographically smallest index tuple.  -/
/- ------------------------------------------------------------------ -/

/-- Claim C2.  For every pool, leg count n in the populated range and
either payout structure (sel = true for power, false for flex), if the
search returns a combination c, then c dominates every admissible
size-n subset (given by its strictly sorted in-range member-index
tuple that passes the exclusion filter), and any such subset attaining
the same (hence maximal) expected value is lexicographically at least
c: the returned subset is the lexicographically smallest maximizer. -/
theorem best_lineups_tie_break_lex
    (df : List AugRow) (k n : ℕ) (allow hasGame sel : Bool) (c c' : List ℕ)
    (hn2 : (if sel = true then 2 else 3) ≤ n) (hn6 : n ≤ 6)
    (hres : (resultOf (best_lineups df k allow hasGame).1 sel n).2 = some c)
    (hsorted : c'.Sorted (· < ·))
    (hbound : ∀ i ∈ c', i < ((best_lineups df k allow hasGame).2).length)
    (hlen : c'.length = n)
    (hadm : invalid_combo allow hasGame ((best_lineups df k allow hasGame).2) c' = false) :
    evOf sel (comboProbs ((best_lineups df k allow hasGame).2) c') n ≤
      evOf sel (comboProbs ((best_lineups df k allow hasGame).2) c) n ∧
    (evOf sel (comboProbs ((best_lineups df k allow hasGame).2) c') n =
        evOf sel (comboProbs ((best_lineups df k allow hasGame).2) c) n →
      c = c' ∨ List.Lex (· < ·) c c') := by
  have hsub : List.Sublist c' (List.range ((best_lineups df k allow hasGame).2).length) :=
    sorted_bounded_sublist_range _ c' hsorted hbound
  cases sel with
  | true =>
    have hres' : (searchBest
        (fun c0 => ev_power (comboProbs ((best_lineups df k allow hasGame).2) c0) n)
        (invalid_combo allow hasGame ((best_lineups df k allow hasGame).2))
        (combinations n (List.range ((best_lineups df k allow hasGame).2).length))).2
          = some c := hres
    obtain ⟨_, _, _, _, hall⟩ := searchBest_some_spec _ _ _ n c hres'
    exact hall c' hsub hlen hadm
  | false =>
    have hres' : (searchBest
        (fun c0 => ev_flex (comboProbs ((best_lineups df k allow hasGame).2) c0) n)
        (invalid_combo allow hasGame ((best_lineups df k allow hasGame).2))
        (combinations n (List.range ((best_lineups df k allow hasGame).2).length))).2
          = some c := hres
    obtain ⟨_, _, _, _, hall⟩ := searchBest_some_spec _ _ _ n c hres'
    exact hall c' hsub hlen hadm

/- ------------------------------------------------------------------ -/
/- Claim C3: insufficient pool yields a sentinel result, no error.     -/
/- ------------------------------------------------------------------ -/

/-- Claim C3, counterexample.  The claim states that with fewer
eligible propositions than n the result entry has null expected value
and null members.  On the empty pool the members are indeed None, but
the expected-value slot is not null: the source leaves the sentinel
best_p = -1e9 in it, as this evaluation of the (total, exception-free)
embedding at pool = [], n = 2 shows. -/
theorem best_lineups_empty_pool_sentinel :
    (best_lineups [] 32 true true).1.1 2 = (-1000000000, none) := rfl

/-- Claim C3, amended.  If the pool df2 contains fewer than n rows,
then for every structure the result entry for n is the pair of the
sentinel expected value -1e9 and members None, and no exception is
raised (the embedding is total). -/
theorem best_lineups_insufficient_pool_none
    (df : List AugRow) (k n : ℕ) (allow hasGame sel : Bool)
    (hn2 : (if sel = true then 2 else 3) ≤ n) (hn6 : n ≤ 6)
    (hlt : ((best_lineups df k allow hasGame).2).length < n) :
    resultOf (best_lineups df k allow hasGame).1 sel n = (-1000000000, none) := by
  have hnil : combinations n (List.range ((best_lineups df k allow hasGame).2).length) = [] :=
    combinations_eq_nil _ n (by rw [List.length_range]; exact hlt)
  cases sel with
  | true =>
    have h1 : resultOf (best_lineups df k allow hasGame).1 true n
        = searchBest
          (fun c0 => ev_power (comboProbs ((best_lineups df k allow hasGame).2) c0) n)
          (invalid_combo allow hasGame ((best_lineups df k allow hasGame).2))
          (combinations n (List.range ((best_lineups df k allow hasGame).2).length)) := rfl
    rw [h1, hnil]
    rfl
  | false =>
    have h1 : resultOf (best_lineups df k allow hasGame).1 false n
        = searchBest
          (fun c0 => ev_flex (comboProbs ((best_lineups df k allow hasGame).2) c0) n)
          (invalid_combo allow hasGame ((best_lineups df k allow hasGame).2))
          (combinations n (List.range ((best_lineups df k allow hasGame).2).length)) := rfl
    rw [h1, hnil]
    rfl

/-- Witness for the amended claim C3 on the empty pool at n = 2 for the
power structure. -/
theorem best_lineups_insufficient_pool_none_witness :
    ((if (true : Bool) = true then 2 else 3) ≤ 2 ∧ 2 ≤ 6 ∧
      ((best_lineups [] 32 true true).2).length < 2) ∧
    resultOf (best_lineups [] 32 true true).1 true 2 = (-1000000000, none) :=
  ⟨⟨by decide, by decide, by decide⟩,
    best_lineups_insufficient_pool_none [] 32 2 true true true
      (by decide) (by decide) (by decide)⟩

/- ------------------------------------------------------------------ -/
/- Concrete evaluation of the search on the three-row witness pool.    -/
/- ------------------------------------------------------------------ -/

/-- Sorting and truncating the witness pool is the identity: all edge
values are equal and the pool is smaller than top_k. -/
theorem pool3_df2_eval : (sortByEdge3Desc pool3).take 32 = pool3 := by
  norm_num [sortByEdge3Desc, pool3, List.insertionSort, List.orderedInsert]

/-- The df2 component returned by best_lineups on the witness pool. -/
theorem pool3_df2_best : (best_lineups pool3 32 false true).2 = pool3 :=
  pool3_df2_eval

/-- The exclusion filter passes the combination [0, 1] of the witness
pool: its games A and B are distinct. -/
theorem pool3_inv01 : invalid_combo false true pool3 [0, 1] = false := by
  simp [invalid_combo, gamesOf, dfGet, pool3,
    List.dedup_cons_of_not_mem, List.dedup_nil]

/-- The exclusion filter passes the combination [0, 2] of the witness
pool. -/
theorem pool3_inv02 : invalid_combo false true pool3 [0, 2] = false := by
  simp [invalid_combo, gamesOf, dfGet, pool3,
    List.dedup_cons_of_not_mem, List.dedup_nil]

/-- The exclusion filter passes the combination [1, 2] of the witness
pool. -/
theorem pool3_inv12 : invalid_combo false true pool3 [1, 2] = false := by
  simp [invalid_combo, gamesOf, dfGet, pool3,
    List.dedup_cons_of_not_mem, List.dedup_nil]

/-- All three 2-of-3 combinations of the witness pool have power
expected value 3 * 1 - 1 = 2. -/
theorem pool3_ev01 : ev_power (comboProbs pool3 [0, 1]) 2 = 2 := by
  norm_num [ev_power, comboProbs, dfGet, pool3, POWER_MULT]

/-- Power expected value of the combination [0, 2] of the witness
pool. -/
theorem pool3_ev02 : ev_power (comboProbs pool3 [0, 2]) 2 = 2 := by
  norm_num [ev_power, comboProbs, dfGet, pool3, POWER_MULT]

/-- Power expected value of the combination [1, 2] of the witness
pool. -/
theorem pool3_ev12 : ev_power (comboProbs pool3 [1, 2]) 2 = 2 := by
  norm_num [ev_power, comboProbs, dfGet, pool3, POWER_MULT]

/-- On the witness pool every 2-subset ties at expected value 2, and
the search returns the enumeration-first combination [0, 1]. -/
theorem pool3_power2_res :
    (resultOf (best_lineups pool3 32 false true).1 true 2).2 = some [0, 1] := by
  have h1 : resultOf (best_lineups pool3 32 false true).1 true 2
      = searchBest (fun c0 => ev_power (comboProbs ((sortByEdge3Desc pool3).take 32) c0) 2)
        (invalid_combo false true ((sortByEdge3Desc pool3).take 32))
        (combinations 2 (List.range ((sortByEdge3Desc pool3).take 32).length)) := rfl
  rw [h1, pool3_df2_eval]
  have h2 : combinations 2 (List.range pool3.length) = [[0, 1], [0, 2], [1, 2]] := rfl
  rw [h2]
  unfold searchBest
  simp only [List.foldl_cons, List.foldl_nil, searchStep,
    pool3_inv01, pool3_inv02, pool3_inv12, pool3_ev01, pool3_ev02, pool3_ev12]
  norm_num

/-- Witness for claim C2 on the witness pool: every 2-subset ties, the
search returns [0, 1], and the admissible competitor [1, 2] is
lexicographically larger. -/
theorem best_lineups_tie_break_lex_witness :
    ((if (true : Bool) = true then 2 else 3) ≤ 2 ∧ 2 ≤ 6 ∧
      (resultOf (best_lineups pool3 32 false true).1 true 2).2 = some [0, 1] ∧
      ([1, 2] : List ℕ).Sorted (· < ·) ∧
      (∀ i ∈ ([1, 2] : List ℕ), i < ((best_lineups pool3 32 false true).2).length) ∧
      ([1, 2] : List ℕ).length = 2 ∧
      invalid_combo false true ((best_lineups pool3 32 false true).2) [1, 2] = false) ∧
    (evOf true (comboProbs ((best_lineups pool3 32 false true).2) [1, 2]) 2 ≤
      evOf true (comboProbs ((best_lineups pool3 32 false true).2) [0, 1]) 2 ∧
    (evOf true (comboProbs ((best_lineups pool3 32 false true).2) [1, 2]) 2 =
        evOf true (comboProbs ((best_lineups pool3 32 false true).2) [0, 1]) 2 →
      [0, 1] = [1, 2] ∨ List.Lex (· < ·) [0, 1] [1, 2])) :=
  ⟨⟨by decide, by decide, pool3_power2_res,
      by decide,
      by rw [pool3_df2_best]; decide,
      by decide,
      by rw [pool3_df2_best]; exact pool3_inv12⟩,
    best_lineups_tie_break_lex pool3 32 2 false true true [0, 1] [1, 2]
      (by decide) (by decide) pool3_power2_res
      (by decide)
      (by rw [pool3_df2_best]; decide)
      (by decide)
      (by rw [pool3_df2_best]; exact pool3_inv12)⟩

/- ------------------------------------------------------------------ -/
/- Claim C5: same-game exclusion.                                      -/
/- ------------------------------------------------------------------ -/

/-- Claim C5.  With the exclusion enabled (allow_same_game = false, and
the game column present), every combination returned by the search has
pairwise distinct game labels; with the exclusion disabled
(allow_same_game = true), the filter admits every combination, so every
size-n subset of the pool is admissible. -/
theorem best_lineups_same_game_exclusion
    (df : List AugRow) (k n : ℕ) (hasGame sel : Bool) (c : List ℕ)
    (hn2 : (if sel = true then 2 else 3) ≤ n) (hn6 : n ≤ 6)
    (hres : (resultOf (best_lineups df k false true).1 sel n).2 = some c) :
    (gamesOf ((best_lineups df k false true).2) c).Nodup ∧
    (∀ (df2 : List AugRow) (c2 : List ℕ), invalid_combo true hasGame df2 c2 = false) := by
  constructor
  · cases sel with
    | true =>
      have hres' : (searchBest
          (fun c0 => ev_power (comboProbs ((best_lineups df k false true).2) c0) n)
          (invalid_combo false true ((best_lineups df k false true).2))
          (combinations n (List.range ((best_lineups df k false true).2).length))).2
            = some c := hres
      obtain ⟨_, _, hinv, _, _⟩ := searchBest_some_spec _ _ _ n c hres'
      exact nodup_of_invalid_combo_false _ c hinv
    | false =>
      have hres' : (searchBest
          (fun c0 => ev_flex (comboProbs ((best_lineups df k false true).2) c0) n)
          (invalid_combo false true ((best_lineups df k false true).2))
          (combinations n (List.range ((best_lineups df k false true).2).length))).2
            = some c := hres
      obtain ⟨_, _, hinv, _, _⟩ := searchBest_some_spec _ _ _ n c hres'
      exact nodup_of_invalid_combo_false _ c hinv
  · intro df2 c2
    simp [invalid_combo]

/-- Witness for claim C5 on the witness pool (distinct games A, B). -/
theorem best_lineups_same_game_exclusion_witness :
    ((if (true : Bool) = true then 2 else 3) ≤ 2 ∧ 2 ≤ 6 ∧
      (resultOf (best_lineups pool3 32 false true).1 true 2).2 = some [0, 1]) ∧
    ((gamesOf ((best_lineups pool3 32 false true).2) [0, 1]).Nodup ∧
      (∀ (df2 : List AugRow) (c2 : List ℕ), invalid_combo true true df2 c2 = false)) :=
  ⟨⟨by decide, by decide, pool3_power2_res⟩,
    best_lineups_same_game_exclusion pool3 32 2 true true [0, 1]
      (by decide) (by decide) pool3_power2_res⟩

/- ------------------------------------------------------------------ -/
/- Claim C10: members come from the re-ranked top_k prefix.            -/
/- ------------------------------------------------------------------ -/

/-- Claim C10.  Every combination returned by best_lineups (for either
structure and any populated leg count) draws its member indices from
the pool df2, which is the top_k prefix of the table ranked by the
edge_vs_BE_power3 column in descending order; every member row belongs
to that prefix. -/
theorem best_lineups_members_from_top_k
    (df : List AugRow) (k n : ℕ) (allow hasGame sel : Bool) (c : List ℕ)
    (hn2 : (if sel = true then 2 else 3) ≤ n) (hn6 : n ≤ 6)
    (hres : (resultOf (best_lineups df k allow hasGame).1 sel n).2 = some c) :
    ∀ i ∈ c, i < ((sortByEdge3Desc df).take k).length ∧
      dfGet ((sortByEdge3Desc df).take k) i ∈ (sortByEdge3Desc df).take k := by
  have hsub : List.Sublist c (List.range ((sortByEdge3Desc df).take k).length) := by
    cases sel with
    | true =>
      have hres' : (searchBest
          (fun c0 => ev_power (comboProbs ((best_lineups df k allow hasGame).2) c0) n)
          (invalid_combo allow hasGame ((best_lineups df k allow hasGame).2))
          (combinations n (List.range ((best_lineups df k allow hasGame).2).length))).2
            = some c := hres
      exact (searchBest_some_spec _ _ _ n c hres').2.1
    | false =>
      have hres' : (searchBest
          (fun c0 => ev_flex (comboProbs ((best_lineups df k allow hasGame).2) c0) n)
          (invalid_combo allow hasGame ((best_lineups df k allow hasGame).2))
          (combinations n (List.range ((best_lineups df k allow hasGame).2).length))).2
            = some c := hres
      exact (searchBest_some_spec _ _ _ n c hres').2.1
  intro i hi
  have hlt : i < ((sortByEdge3Desc df).take k).length :=
    List.mem_range.mp (hsub.subset hi)
  exact ⟨hlt, dfGet_mem _ i hlt⟩

/-- Witness for claim C10 on the witness pool. -/
theorem best_lineups_members_from_top_k_witness :
    ((if (true : Bool) = true then 2 else 3) ≤ 2 ∧ 2 ≤ 6 ∧
      (resultOf (best_lineups pool3 32 false true).1 true 2).2 = some [0, 1]) ∧
    (∀ i ∈ ([0, 1] : List ℕ), i < ((sortByEdge3Desc pool3).take 32).length ∧
      dfGet ((sortByEdge3Desc pool3).take 32) i ∈ (sortByEdge3Desc pool3).take 32) :=
  ⟨⟨by decide, by decide, pool3_power2_res⟩,
    best_lineups_members_from_top_k pool3 32 2 false true true [0, 1]
      (by decide) (by decide) pool3_power2_res⟩

/- ------------------------------------------------------------------ -/
/- Claim C9: the entry points never write the caller table.            -/
/- ------------------------------------------------------------------ -/

/-- Claim C9.  Both entry points leave the caller table unchanged in
the store: compute_probabilities writes p_over and the edge columns
only into the fresh copy it allocates, and best_lineups builds df2 as a
fresh table and only reads it.  This holds for every breakeven
parameter be. -/
theorem entry_points_preserve_input_table
    (be : ℕ → ℚ) (s : List (List PRow)) (r k : ℕ) (allow hasGame : Bool)
    (hr : r < s.length) :
    (compute_probabilities be s r).1.get? r = s.get? r ∧
    (best_lineups_prog s r k allow hasGame).1.get? r = s.get? r := by
  have hrs : s.length ≠ r := Ne.symm (Nat.ne_of_lt hr)
  have hset : ∀ (st : List (List PRow)) (name : String) (vals : List ℚ),
      (setColStore st s.length name vals).get? r = st.get? r := by
    intro st name vals
    unfold setColStore
    exact List.get?_set_ne _ _ hrs
  constructor
  · simp only [compute_probabilities, List.foldl_cons, List.foldl_nil]
    rw [hset, hset, hset, hset, hset, hset]
    exact List.get?_append hr
  · simp only [best_lineups_prog]
    exact List.get?_append hr

/-- Witness for claim C9 on a one-table store. -/
theorem entry_points_preserve_input_table_witness :
    (0 < ([[(⟨-110, -110, "g", []⟩ : PRow)]] : List (List PRow)).length) ∧
    ((compute_probabilities (fun _ => 0) [[(⟨-110, -110, "g", []⟩ : PRow)]] 0).1.get? 0
        = ([[(⟨-110, -110, "g", []⟩ : PRow)]] : List (List PRow)).get? 0 ∧
      (best_lineups_prog [[(⟨-110, -110, "g", []⟩ : PRow)]] 0 32 true true).1.get? 0
        = ([[(⟨-110, -110, "g", []⟩ : PRow)]] : List (List PRow)).get? 0) :=
  ⟨by decide,
    entry_points_preserve_input_table (fun _ => 0) [[(⟨-110, -110, "g", []⟩ : PRow)]]
      0 32 true true (by decide)⟩

end PPOpt
